import Mathlib

/-!
Shallow embedding of `src/vogel/utils/stats/stats.py` (the vogel model
statistics module) and verification of the specification's claims about it.

Modelling conventions:
* numpy float vectors are embedded as `List ℚ`; values that the source
  obtains from `np.sqrt` or fractional `np.power` live in `ℝ`.
* a numpy operation that raises (IndexError, broadcast ValueError,
  KeyError on a python dict) is embedded as `Option`/`none`; an operation
  that yields NaN through 0/0 (weighted average of a zero-weight group)
  is likewise embedded as `none`, which is exact for the nonnegative
  weights the data model allows.
* python dict mutation (`train_set['w'] = ...`) is embedded by state
  passing: the embedded function returns the final value of the mutated
  argument alongside its result.
-/

namespace Vogel

/-- Epsilon clamp used throughout the source: `x[x <= 0] = .0000001`. -/
def clampVal (x : ℚ) : ℚ := if x ≤ 0 then 1 / 10000000 else x

/-- Elementwise clamp of a copied vector (`predicted_temp = predicted.copy();
predicted_temp[predicted_temp <= 0] = .0000001`). -/
def clampList (l : List ℚ) : List ℚ := l.map clampVal

/-- `np.cumsum`: running partial sums, same length as the input. -/
def cumsum : List ℚ → List ℚ
  | [] => []
  | x :: xs => x :: (cumsum xs).map (x + ·)

/-- Stable ascending insertion (by a rational key) of one element. -/
def insertLeBy {α : Type} (key : α → ℚ) (x : α) : List α → List α
  | [] => [x]
  | y :: ys => if key y ≤ key x then y :: insertLeBy key x ys else x :: y :: ys

/-- Stable ascending insertion sort by a rational key. -/
def sortLeBy {α : Type} (key : α → ℚ) : List α → List α
  | [] => []
  | x :: xs => insertLeBy key x (sortLeBy key xs)

/-- `np.argsort(predicted)[::-1]`: indices `0..n-1` ordered so that
`predicted` read through them is descending (reverse of the ascending
argsort). -/
def argsortDesc (p : List ℚ) : List Nat :=
  (sortLeBy (fun i => p.getD i 0) (List.range p.length)).reverse

/-- Fancy indexing `arr[index_list]` on a numpy vector: `none` models the
IndexError raised when an index is out of range. -/
def getList (l : List ℚ) : List Nat → Option (List ℚ)
  | [] => some []
  | i :: is =>
    match l[i]?, getList l is with
    | some x, some xs => some (x :: xs)
    | _, _ => none

/-- Embedding of `weighted_gini` (stats.py lines 22-35).  `none` models the
IndexError raised when an index produced from `predicted` falls outside
`weight`/`actual`, or when the input is empty (`cumulative_weight[-1]`). -/
def weighted_gini (weight actual predicted : List ℚ) : Option ℚ :=
  match getList weight (argsortDesc predicted),
        getList actual (argsortDesc predicted) with
  | some w, some a =>
    let cumulative_weight := cumsum w
    let cumulative_actual := cumsum (List.zipWith (· * ·) w a)
    match cumulative_weight.getLast?, cumulative_actual.getLast? with
    | some cwLast, some caLast =>
      let sum_a := (List.zipWith (· * ·) cumulative_weight.tail
        cumulative_actual.dropLast).sum
      let sum_b := (List.zipWith (· * ·) cumulative_weight.dropLast
        cumulative_actual.tail).sum
      some |(sum_b - sum_a) / (cwLast * caLast)|
    | _, _ => none
  | _, _ => none

/-- Denominator of the spec's Gini formula: `cw[-1] * ca[-1]` over the
vectors reordered by the descending sort permutation on `predicted`. -/
def gini_denominator (weight actual predicted : List ℚ) : ℚ :=
  let idx := argsortDesc predicted
  let w := idx.map fun i => weight.getD i 0
  let a := idx.map fun i => actual.getD i 0
  let cw := cumsum w
  let ca := cumsum (List.zipWith (· * ·) w a)
  let n := predicted.length
  cw.getD (n - 1) 0 * ca.getD (n - 1) 0

/-- The spec's formula for the weighted Gini statistic, written with
indexed sums exactly as in spec section 4.1: after reordering by the
descending sort permutation, `sum_b = Σ cw[i-1]*ca[i]` and
`sum_a = Σ cw[i]*ca[i-1]` for `i = 1 .. N-1`, and the result is
`abs((sum_b - sum_a) / (cw[-1] * ca[-1]))`. -/
def weighted_gini_spec (weight actual predicted : List ℚ) : ℚ :=
  let idx := argsortDesc predicted
  let w := idx.map fun i => weight.getD i 0
  let a := idx.map fun i => actual.getD i 0
  let cw := cumsum w
  let ca := cumsum (List.zipWith (· * ·) w a)
  let n := predicted.length
  let sum_b := ∑ i in Finset.range (n - 1), cw.getD i 0 * ca.getD (i + 1) 0
  let sum_a := ∑ i in Finset.range (n - 1), cw.getD (i + 1) 0 * ca.getD i 0
  |(sum_b - sum_a) / (gini_denominator weight actual predicted)|

/-- Numpy elementwise binary operation with broadcasting: equal lengths act
elementwise, a length-1 operand broadcasts, anything else raises
(ValueError), modelled as `none`. -/
def npBinop (f : ℚ → ℚ → ℚ) (x y : List ℚ) : Option (List ℚ) :=
  if x.length = y.length then some (List.zipWith f x y)
  else if x.length = 1 then some (y.map (f (x.headD 0)))
  else if y.length = 1 then some (x.map (fun v => f v (y.headD 0)))
  else none

/-- Embedding of `weighted_rmse` (stats.py lines 38-40):
`np.sqrt(np.sum(weight * np.power(actual - predicted, 2)) / np.sum(weight))`.
Division of a nonzero numerator by a zero total weight, a NaN in python,
is out of scope of every claim; `ℚ` division by zero is `0` here. -/
noncomputable def weighted_rmse (weight actual predicted : List ℚ) :
    Option ℝ :=
  match npBinop (· - ·) actual predicted with
  | none => none
  | some d =>
    match npBinop (· * ·) weight (d.map (fun x => x ^ 2)) with
    | none => none
    | some s => some (Real.sqrt (((s.sum / weight.sum : ℚ) : ℝ)))

/-- sklearn `mean_squared_error`: raises on mismatched or empty inputs. -/
def mean_squared_error (y pred : List ℚ) : Option ℚ :=
  if y.length = pred.length ∧ y.length ≠ 0 then
    some ((List.zipWith (fun u v => (u - v) ^ 2) y pred).sum / (y.length : ℚ))
  else none

/-- sklearn `mean_absolute_error`: raises on mismatched or empty inputs. -/
def mean_absolute_error (y pred : List ℚ) : Option ℚ :=
  if y.length = pred.length ∧ y.length ≠ 0 then
    some ((List.zipWith (fun u v => |u - v|) y pred).sum / (y.length : ℚ))
  else none

/-- Embedding of `weighted_average` (stats.py lines 57-59 and 65-67):
`np.sum(x * w) / np.sum(w)`.  A zero total weight yields NaN (0/0) in
python; that is modelled as `none`, exact for the nonnegative weights the
data model admits. -/
def weighted_average (x w : List ℚ) : Option ℚ :=
  if w.sum = 0 then none
  else some ((List.zipWith (· * ·) x w).sum / w.sum)

/-- One row of the frame built by `hl_tweedie_df`: the `weight`, `actual`,
clamped `predicted` and `quantile` (bin id) columns. -/
structure Row where
  weight : ℚ
  actual : ℚ
  predicted : ℚ
  quantile : Nat
deriving DecidableEq

/-- Embedding of the closure returned by `chi_sq_tweedie` (stats.py lines
62-75), applied to the column lists of one group:
`(wavg_actual - wavg_predicted)^2 / ((phi * wavg_predicted^p) / sum(weight))`.
`none` models the NaN produced when the group's total weight is zero. -/
noncomputable def chi_sq_tweedie_lists (phi p : ℚ) (ws as ps : List ℚ) :
    Option ℝ :=
  match weighted_average as ws, weighted_average ps ws with
  | some wavg_actual, some wavg_predicted =>
    some ((((wavg_actual - wavg_predicted : ℚ) : ℝ)) ^ 2 /
      (((phi : ℝ) * ((wavg_predicted : ℚ) : ℝ) ^ ((p : ℝ))) /
        ((ws.sum : ℚ) : ℝ)))
  | _, _ => none

/-- `chi_sq_tweedie`'s inner closure applied to one groupby group. -/
noncomputable def chi_sq_tweedie (phi p : ℚ) (grp : List Row) : Option ℝ :=
  chi_sq_tweedie_lists phi p (grp.map Row.weight) (grp.map Row.actual)
    (grp.map Row.predicted)

/-- The per-bin chi-square term of the spec, written for a bin of positive
total weight (plain real arithmetic, no failure case). -/
noncomputable def chi_sq_term_pos (phi p : ℚ) (grp : List Row) : ℝ :=
  let ws := grp.map Row.weight
  let wavg_actual := (List.zipWith (· * ·) (grp.map Row.actual) ws).sum / ws.sum
  let wavg_predicted :=
    (List.zipWith (· * ·) (grp.map Row.predicted) ws).sum / ws.sum
  ((wavg_actual - wavg_predicted : ℚ) : ℝ) ^ 2 /
    (((phi : ℝ) * ((wavg_predicted : ℚ) : ℝ) ^ ((p : ℝ))) / ((ws.sum : ℚ) : ℝ))

/-- Linear interpolation through a list of (cumulative fraction, value)
pairs, the inverse-CDF step of the modelled weighted quantile. -/
def wqInterp : List (ℚ × ℚ) → ℚ → ℚ
  | [], _ => 0
  | [(_, v)], _ => v
  | (c1, v1) :: (c2, v2) :: rest, q =>
    if q ≤ c1 then v1
    else if q ≤ c2 then
      (if c2 = c1 then v2 else v1 + (q - c1) / (c2 - c1) * (v2 - v1))
    else wqInterp ((c2, v2) :: rest) q

/-- Modelled from the spec: the external weighted quantile estimator
`sm.stats.DescrStatsW(predicted, weights=weight).quantile(...)` is a
statsmodels primitive absent from src; per spec sections 3 and 6 it is a
linear-interpolation weighted quantile over the (value, weight) pairs.
`none` models failure on empty data or zero total weight. -/
def weightedQuantile (values weights : List ℚ) (q : ℚ) : Option ℚ :=
  if weights.sum = 0 ∨ values.length = 0 then none
  else
    let pairs := sortLeBy Prod.fst (values.zip weights)
    let cw := cumsum (pairs.map Prod.snd)
    some (wqInterp ((cw.map (· / weights.sum)).zip (pairs.map Prod.fst)) q)

/-- The cumulative probabilities `np.arange(1, bins) * 1 / bins`. -/
def probsList (bins : Nat) : List ℚ :=
  (List.range (bins - 1)).map (fun i => ((i + 1 : ℕ) : ℚ) / (bins : ℚ))

/-- Option-valued map over a list of rationals (python list comprehension
over a fallible call). -/
def mapOptionList (f : ℚ → Option ℚ) : List ℚ → Option (List ℚ)
  | [] => some []
  | x :: xs =>
    match f x, mapOptionList f xs with
    | some y, some ys => some (y :: ys)
    | _, _ => none

/-- `np.searchsorted(a, v)` with the default `side='left'` on a
nondecreasing `a`: the first index whose element is `≥ v`. -/
def searchsorted (a : List ℚ) (v : ℚ) : Nat :=
  match a with
  | [] => 0
  | x :: xs => if x < v then searchsorted xs v + 1 else 0

/-- Embedding of `hl_tweedie_df` (stats.py lines 78-92).  The first
component is the frame (`none` models the errors raised on mismatched
column lengths or a failed quantile computation); the second component is
the caller's `predicted` vector after the call — the source clamps a copy
(`predicted_temp`) and never writes through `predicted`.  Note the
quantile cut points and the `searchsorted` assignment both read the
unclamped `predicted`; only the frame's `predicted` column is clamped. -/
def hl_tweedie_df (weight actual predicted : List ℚ) (bins : Nat)
    (phi p : ℚ) : Option (List Row) × List ℚ :=
  let predicted_temp := clampList predicted
  let res : Option (List Row) :=
    if weight.length = predicted.length ∧ actual.length = predicted.length then
      match mapOptionList (weightedQuantile predicted weight) (probsList bins) with
      | none => none
      | some qs =>
        let quantile := predicted.map (searchsorted qs)
        some ((List.range predicted.length).map (fun i =>
          ⟨weight.getD i 0, actual.getD i 0, predicted_temp.getD i 0,
            quantile.getD i 0⟩))
    else none
  (res, predicted)

/-- Ascending sort of the distinct quantile ids present in the frame:
the group keys of `df.groupby('quantile')`. -/
def quantileKeys (df : List Row) : List Nat :=
  sortLeBy (fun n => (n : ℚ)) (df.map Row.quantile).dedup

/-- The rows of one groupby group, in frame order. -/
def groupRows (df : List Row) (q : Nat) : List Row :=
  df.filter (fun r => r.quantile = q)

/-- Sum of the per-group chi-square terms over the given group keys.
`pandas.Series.sum` defaults to `skipna=True`: a NaN term (the `none` of a
zero-weight group) is skipped, and an all-NaN series sums to `0.0`. -/
noncomputable def sumChiTerms (phi p : ℚ) (df : List Row) :
    List Nat → ℝ
  | [] => 0
  | q :: qs =>
    match chi_sq_tweedie phi p (groupRows df q) with
    | some t => t + sumChiTerms phi p df qs
    | none => sumChiTerms phi p df qs

/-- Embedding of `hl_tweedie` (stats.py lines 95-97):
`df.groupby('quantile').apply(chi_sq_tweedie(phi, p)).sum()`. -/
noncomputable def hl_tweedie (weight actual predicted : List ℚ) (bins : Nat)
    (phi p : ℚ) : Option ℝ :=
  match (hl_tweedie_df weight actual predicted bins phi p).1 with
  | none => none
  | some df => some (sumChiTerms phi p df (quantileKeys df))

/-- Claim C7's reading of the aggregation: the sum of per-bin chi-square
terms over exactly the bins with positive total weight. -/
noncomputable def hl_positive_bins_sum (weight actual predicted : List ℚ)
    (bins : Nat) (phi p : ℚ) : Option ℝ :=
  match (hl_tweedie_df weight actual predicted bins phi p).1 with
  | none => none
  | some df =>
    some ((((quantileKeys df).filter
        (fun q => 0 < ((groupRows df q).map Row.weight).sum)).map
      (fun q => chi_sq_term_pos phi p (groupRows df q))).sum)

/-- Claim C2's reading of the binning stage: cut points over the unclamped
predicted vector, bin ids by `searchsorted` applied to the CLAMPED
predicted vector. -/
def stage_a_bins_claim (weight actual predicted : List ℚ) (bins : Nat) :
    Option (List Nat) :=
  match mapOptionList (weightedQuantile predicted weight) (probsList bins) with
  | none => none
  | some qs => some ((clampList predicted).map (searchsorted qs))

/-- The per-bin chi-square formula evaluated over the entire dataset as one
bin (with the frame's clamped predicted column), claim C8's reading. -/
noncomputable def hl_whole_dataset_term (phi p : ℚ)
    (weight actual predicted : List ℚ) : Option ℝ :=
  chi_sq_tweedie_lists phi p weight actual (clampList predicted)

/-- Modelled from the spec: the external statsmodels primitive
`sm.families.Tweedie(var_power=p).deviance` is absent from src; per spec
section 4.3 the unit deviance for power `p ∉ {1, 2}` is
`2*(y^(2-p)/((1-p)(2-p)) - y*mu^(1-p)/(1-p) + mu^(2-p)/(2-p))`. -/
noncomputable def tweedie_unit_deviance (p : ℚ) (y mu : ℝ) : ℝ :=
  2 * (y ^ (((2 - p : ℚ) : ℝ)) / (((1 - p : ℚ) : ℝ) * ((2 - p : ℚ) : ℝ))
    - y * mu ^ (((1 - p : ℚ) : ℝ)) / ((1 - p : ℚ) : ℝ)
    + mu ^ (((2 - p : ℚ) : ℝ)) / ((2 - p : ℚ) : ℝ))

/-- Modelled from the spec: frequency-weighted total Tweedie deviance, the
contract of the statsmodels deviance primitive (spec sections 4.3, 6). -/
noncomputable def tweedie_deviance_primitive (p : ℚ)
    (actual predicted weight : List ℚ) : ℝ :=
  (List.zipWith (fun (ym : ℚ × ℚ) (w : ℚ) =>
      (w : ℝ) * tweedie_unit_deviance p (ym.1 : ℝ) (ym.2 : ℝ))
    (actual.zip predicted) weight).sum

/-- Embedding of `deviance_tweedie` (stats.py lines 100-104).  The second
component is the caller's `predicted` after the call: the source clamps a
copy and never writes through `predicted`. -/
noncomputable def deviance_tweedie (actual predicted weight : List ℚ)
    (p : ℚ) : ℝ × List ℚ :=
  let predicted_temp := clampList predicted
  (tweedie_deviance_primitive p actual predicted_temp weight, predicted)

/-- Embedding of `pearson_chi_sq_scale_estimate` (stats.py lines 43-54).
The second component is the caller's `predicted` after the call: the
source clamps a copy and never writes through `predicted`. -/
noncomputable def pearson_chi_sq_scale_estimate (actual weight predicted :
    List ℚ) (p tweedie_power : ℚ) : ℝ × List ℚ :=
  let predicted_temp := clampList predicted
  let n := actual.length
  let se := List.zipWith (fun y m => (y - m) ^ 2) actual predicted_temp
  let terms := List.zipWith (fun (ws : ℚ × ℚ) (m : ℚ) =>
      ((ws.1 : ℝ) * (ws.2 : ℝ)) / ((m : ℝ) ^ ((tweedie_power : ℝ))))
    (weight.zip se) predicted_temp
  ((1 / ((n : ℝ) - (p : ℝ))) * terms.sum, predicted)

/-- A python dict `{'y': ..., 'pred': ..., 'w': ...}`: each key optional. -/
structure DSet where
  y : Option (List ℚ)
  pred : Option (List ℚ)
  w : Option (List ℚ)
deriving DecidableEq

/-- One of the two per-split metric dicts built by `model_stats_reg`; a
`none` field is an absent key, a present key holds a one-element list. -/
structure MetricsDict where
  rmse : Option (List ℝ) := none
  mae : Option (List ℝ) := none
  gini : Option (List ℝ) := none
  weighted_rmse : Option (List ℝ) := none

/-- The `out_dict = {'train': {}, 'valid': {}}` report. -/
structure Report where
  train : MetricsDict
  valid : MetricsDict

/-- `np.ones(n)` as a rational vector. -/
def onesQ (n : Nat) : List ℚ := List.replicate n 1

/-- The pre-try weight-filling block of `model_stats_reg` (stats.py lines
122-127): runs before the `try`, so a missing `'y'` key here is an
uncaught KeyError (`none`).  Returns the (possibly mutated) `train_set`
and the `has_weight` flag — which the source sets to `True` exactly when
`'w'` was ABSENT. -/
def msrFill (train_set : DSet) (valid_set : Option DSet) :
    Option (DSet × Bool) :=
  match train_set.w with
  | some _ => some (train_set, false)
  | none =>
    match train_set.y with
    | none => none
    | some ty =>
      match valid_set with
      | none => some ({ train_set with w := some (onesQ ty.length) }, true)
      | some vs =>
        match vs.y with
        | none => none
        | some vy => some ({ train_set with w := some (onesQ vy.length) }, true)

/-- One statement of the `try` block: either updates the report or raises
(`none`), in which case the block stops with the report built so far. -/
noncomputable def stTrainRmse (ts : DSet) (r : Report) : Option Report :=
  match ts.y, ts.pred with
  | some y, some pred =>
    match mean_squared_error y pred with
    | some m => some { r with train.rmse := some [Real.sqrt ((m : ℚ) : ℝ)] }
    | none => none
  | _, _ => none

/-- The `train` `mae` statement of the `try` block. -/
noncomputable def stTrainMae (ts : DSet) (r : Report) : Option Report :=
  match ts.y, ts.pred with
  | some y, some pred =>
    match mean_absolute_error y pred with
    | some m => some { r with train.mae := some [((m : ℚ) : ℝ)] }
    | none => none
  | _, _ => none

/-- The `train` `gini` statement of the `try` block. -/
noncomputable def stTrainGini (ts : DSet) (r : Report) : Option Report :=
  match ts.w, ts.y, ts.pred with
  | some w, some y, some pred =>
    match weighted_gini w y pred with
    | some g => some { r with train.gini := some [((g : ℚ) : ℝ)] }
    | none => none
  | _, _, _ => none

/-- The `train` `weighted_rmse` statement of the `try` block (only run
when the source's `has_weight` flag is set). -/
noncomputable def stTrainWrmse (ts : DSet) (r : Report) : Option Report :=
  match ts.w, ts.y, ts.pred with
  | some w, some y, some pred =>
    match weighted_rmse w y pred with
    | some v => some { r with train.weighted_rmse := some [v] }
    | none => none
  | _, _, _ => none

/-- The `valid` `rmse` statement of the `try` block. -/
noncomputable def stValidRmse (vs : DSet) (r : Report) : Option Report :=
  match vs.y, vs.pred with
  | some y, some pred =>
    match mean_squared_error y pred with
    | some m => some { r with valid.rmse := some [Real.sqrt ((m : ℚ) : ℝ)] }
    | none => none
  | _, _ => none

/-- The `valid` `mae` statement of the `try` block. -/
noncomputable def stValidMae (vs : DSet) (r : Report) : Option Report :=
  match vs.y, vs.pred with
  | some y, some pred =>
    match mean_absolute_error y pred with
    | some m => some { r with valid.mae := some [((m : ℚ) : ℝ)] }
    | none => none
  | _, _ => none

/-- The `valid` `gini` statement of the `try` block. -/
noncomputable def stValidGini (vs : DSet) (r : Report) : Option Report :=
  match vs.w, vs.y, vs.pred with
  | some w, some y, some pred =>
    match weighted_gini w y pred with
    | some g => some { r with valid.gini := some [((g : ℚ) : ℝ)] }
    | none => none
  | _, _, _ => none

/-- The `valid` `weighted_rmse` statement of the `try` block. -/
noncomputable def stValidWrmse (vs : DSet) (r : Report) : Option Report :=
  match vs.w, vs.y, vs.pred with
  | some w, some y, some pred =>
    match weighted_rmse w y pred with
    | some v => some { r with valid.weighted_rmse := some [v] }
    | none => none
  | _, _, _ => none

/-- The `try ... except` runner: statements run in order; the first raise
stops the block and the report built so far is kept (the `except` branch
only prints). -/
def tryRun : List (Report → Option Report) → Report → Report
  | [], r => r
  | s :: rest, r =>
    match s r with
    | none => r
    | some r' => tryRun rest r'

/-- The statements of the `try` block of `model_stats_reg`, in source
order (stats.py lines 129-167). -/
noncomputable def msrSteps (ts : DSet) (vso : Option DSet) (hw : Bool) :
    List (Report → Option Report) :=
  [stTrainRmse ts, stTrainMae ts, stTrainGini ts]
    ++ (if hw then [stTrainWrmse ts] else [])
    ++ (match vso with
        | none => []
        | some vs => [stValidRmse vs, stValidMae vs, stValidGini vs,
            stValidWrmse vs])

/-- Embedding of `model_stats_reg` (stats.py lines 107-173).  The result
carries the report together with the final values of the caller's
`train_set` and `valid_set` dicts (python passes dicts by reference and
the weight-filling block assigns into `train_set`).  `none` models an
uncaught exception (the weight fill runs before the `try`). -/
noncomputable def model_stats_reg (train_set : DSet)
    (valid_set : Option DSet) : Option (Report × DSet × Option DSet) :=
  match msrFill train_set valid_set with
  | none => none
  | some (ts, hw) =>
    some (tryRun (msrSteps ts valid_set hw) ⟨{}, {}⟩, ts, valid_set)

lemma insertLeBy_perm {α : Type} (key : α → ℚ) (x : α) (l : List α) :
    List.Perm (insertLeBy key x l) (x :: l) := by
  induction l with
  | nil => simp [insertLeBy]
  | cons y ys ih =>
    simp only [insertLeBy]
    split
    · exact ((ih.cons y).trans (List.Perm.swap x y ys))
    · exact List.Perm.refl _

lemma sortLeBy_perm {α : Type} (key : α → ℚ) (l : List α) :
    List.Perm (sortLeBy key l) l := by
  induction l with
  | nil => simp [sortLeBy]
  | cons x xs ih =>
    exact (insertLeBy_perm key x (sortLeBy key xs)).trans (ih.cons x)

lemma argsortDesc_perm (p : List ℚ) :
    List.Perm (argsortDesc p) (List.range p.length) :=
  (List.reverse_perm _).trans (sortLeBy_perm _ _)

lemma mem_argsortDesc_lt {p : List ℚ} {i : Nat} (h : i ∈ argsortDesc p) :
    i < p.length := by
  have := (argsortDesc_perm p).mem_iff.mp h
  exact List.mem_range.mp this

lemma mem_argsortDesc_of_lt {p : List ℚ} {i : Nat}
    (hi : i < p.length) : i ∈ argsortDesc p := by
  exact (argsortDesc_perm p).mem_iff.mpr (List.mem_range.mpr hi)

lemma getList_eq_map {l : List ℚ} : ∀ {idx : List Nat},
    (∀ i ∈ idx, i < l.length) →
    getList l idx = some (idx.map fun i => l.getD i 0) := by
  intro idx
  induction idx with
  | nil => intro _; simp [getList]
  | cons i is ih =>
    intro h
    have hi : i < l.length := h i (List.mem_cons_self i is)
    have hrest := ih (fun j hj => h j (List.mem_cons_of_mem i hj))
    have hget : l[i]? = some l[i] := List.getElem?_eq_getElem hi
    have hgetD : l.getD i 0 = l[i] := List.getD_eq_getElem l 0 hi
    simp only [getList, hget, hrest, List.map_cons, hgetD]

lemma getList_eq_none {l : List ℚ} {i : Nat} : ∀ {idx : List Nat},
    i ∈ idx → l.length ≤ i → getList l idx = none := by
  intro idx
  induction idx with
  | nil => intro h; exact absurd h (List.not_mem_nil i)
  | cons j js ih =>
    intro h hlen
    rcases List.mem_cons.mp h with rfl | hmem
    · have hnone : l[i]? = none := List.getElem?_eq_none hlen
      simp [getList, hnone]
    · have := ih hmem hlen
      simp only [getList, this]
      cases h' : l[j]? <;> rfl

lemma cumsum_length (l : List ℚ) : (cumsum l).length = l.length := by
  induction l with
  | nil => rfl
  | cons x xs ih => simp [cumsum, ih]

lemma cumsum_ne_nil {l : List ℚ} (h : l ≠ []) : cumsum l ≠ [] := by
  cases l with
  | nil => exact absurd rfl h
  | cons x xs => simp [cumsum]

lemma getLast?_eq_getD {l : List ℚ} (h : l ≠ []) :
    l.getLast? = some (l.getD (l.length - 1) 0) := by
  rw [List.getLast?_eq_getElem?]
  have hlt : l.length - 1 < l.length := by
    cases l with
    | nil => exact absurd rfl h
    | cons x xs => simp
  rw [List.getElem?_eq_getElem hlt, List.getD_eq_getElem?_getD,
    List.getElem?_eq_getElem hlt]
  rfl

lemma getD_tail (l : List ℚ) (i : Nat) : l.tail.getD i 0 = l.getD (i + 1) 0 := by
  cases l <;> simp [List.getD_cons_succ]

lemma getD_dropLast {l : List ℚ} {i : Nat} (h : i < l.length - 1) :
    l.dropLast.getD i 0 = l.getD i 0 := by
  rw [List.dropLast_eq_take]
  rw [List.getD_eq_getElem?_getD, List.getD_eq_getElem?_getD,
    List.getElem?_take_of_lt h]

lemma zipWith_mul_sum : ∀ (xs ys : List ℚ),
    (List.zipWith (· * ·) xs ys).sum =
      ∑ i in Finset.range (min xs.length ys.length), xs.getD i 0 * ys.getD i 0 := by
  intro xs
  induction xs with
  | nil => intro ys; simp
  | cons x xs ih =>
    intro ys
    cases ys with
    | nil => simp
    | cons y ys =>
      simp only [List.zipWith_cons_cons, List.sum_cons, List.length_cons,
        Nat.succ_min_succ, Finset.sum_range_succ']
      rw [ih ys]
      simp [List.getD_cons_succ, List.getD_cons_zero, add_comm]

lemma weighted_gini_eq_spec {weight actual predicted : List ℚ}
    (hw : weight.length = predicted.length)
    (ha : actual.length = predicted.length)
    (hn : 0 < predicted.length) :
    weighted_gini weight actual predicted =
      some (weighted_gini_spec weight actual predicted) := by
  have hidxlen : (argsortDesc predicted).length = predicted.length :=
    (argsortDesc_perm predicted).length_eq.trans (List.length_range _)
  have hwmem : ∀ i ∈ argsortDesc predicted, i < weight.length :=
    fun i hi => hw ▸ mem_argsortDesc_lt hi
  have hamem : ∀ i ∈ argsortDesc predicted, i < actual.length :=
    fun i hi => ha ▸ mem_argsortDesc_lt hi
  have hgw := getList_eq_map (l := weight) hwmem
  have hga := getList_eq_map (l := actual) hamem
  set idx := argsortDesc predicted with hidx
  set n := predicted.length with hn'
  set w := idx.map (fun i => weight.getD i 0) with hwdef
  set a := idx.map (fun i => actual.getD i 0) with hadef
  have hwlen : w.length = n := by simp [hwdef, hidxlen]
  have halen : a.length = n := by simp [hadef, hidxlen]
  have hwalen : (List.zipWith (· * ·) w a).length = n := by
    simp [List.length_zipWith, hwlen, halen]
  have hcwlen : (cumsum w).length = n := (cumsum_length w).trans hwlen
  have hcalen : (cumsum (List.zipWith (· * ·) w a)).length = n :=
    (cumsum_length _).trans hwalen
  have hcwne : cumsum w ≠ [] :=
    List.ne_nil_of_length_pos (by rw [hcwlen]; exact hn)
  have hcane : cumsum (List.zipWith (· * ·) w a) ≠ [] :=
    List.ne_nil_of_length_pos (by rw [hcalen]; exact hn)
  have hlastw := getLast?_eq_getD hcwne
  have hlasta := getLast?_eq_getD hcane
  rw [hcwlen] at hlastw
  rw [hcalen] at hlasta
  have hsa : (List.zipWith (· * ·) (cumsum w).tail
      (cumsum (List.zipWith (· * ·) w a)).dropLast).sum =
      ∑ i in Finset.range (n - 1),
        (cumsum w).getD (i + 1) 0 * (cumsum (List.zipWith (· * ·) w a)).getD i 0 := by
    rw [zipWith_mul_sum]
    rw [List.length_tail, List.length_dropLast, hcwlen, hcalen, Nat.min_self]
    exact Finset.sum_congr rfl fun i hi => by
      rw [getD_tail, getD_dropLast (by rw [hcalen]; exact Finset.mem_range.mp hi)]
  have hsb : (List.zipWith (· * ·) (cumsum w).dropLast
      (cumsum (List.zipWith (· * ·) w a)).tail).sum =
      ∑ i in Finset.range (n - 1),
        (cumsum w).getD i 0 * (cumsum (List.zipWith (· * ·) w a)).getD (i + 1) 0 := by
    rw [zipWith_mul_sum]
    rw [List.length_tail, List.length_dropLast, hcwlen, hcalen, Nat.min_self]
    exact Finset.sum_congr rfl fun i hi => by
      rw [getD_tail, getD_dropLast (by rw [hcwlen]; exact Finset.mem_range.mp hi)]
  simp only [weighted_gini, weighted_gini_spec, gini_denominator, hgw, hga,
    hlastw, hlasta, hsa, hsb]

lemma weighted_gini_spec_of_length_one {weight actual predicted : List ℚ}
    (h1 : predicted.length = 1) :
    weighted_gini_spec weight actual predicted = 0 := by
  simp [weighted_gini_spec, h1]

/-- C1: for equal-length inputs of length `N ≥ 1`, `weighted_gini` returns
`abs((sum_b - sum_a) / (cw[-1] * ca[-1]))` where `cw`/`ca` are the cumulative
sums of `weight` and `weight*actual` after reordering by the descending sort
permutation on `predicted`, `sum_a` pairs `cw[1:]` with `ca[:-1]` and `sum_b`
pairs `cw[:-1]` with `ca[1:]`; in particular for `N = 1` with nonzero
denominator the result is `0`. -/
theorem weighted_gini_matches_spec_formula (weight actual predicted : List ℚ)
    (hw : weight.length = predicted.length)
    (ha : actual.length = predicted.length)
    (hn : 0 < predicted.length) :
    weighted_gini weight actual predicted =
      some (weighted_gini_spec weight actual predicted) ∧
    (predicted.length = 1 → gini_denominator weight actual predicted ≠ 0 →
      weighted_gini weight actual predicted = some 0) := by
  refine ⟨weighted_gini_eq_spec hw ha hn, fun h1 _ => ?_⟩
  rw [weighted_gini_eq_spec hw ha hn, weighted_gini_spec_of_length_one h1]

/-- Witness for C1 at `weight = [1]`, `actual = [2]`, `predicted = [3]`. -/
theorem weighted_gini_matches_spec_formula_witness :
    weighted_gini [1] [2] [3] = some (weighted_gini_spec [1] [2] [3]) ∧
    (([(3 : ℚ)] : List ℚ).length = 1 → gini_denominator [1] [2] [3] ≠ 0 →
      weighted_gini [1] [2] [3] = some 0) :=
  weighted_gini_matches_spec_formula [1] [2] [3] (by decide) (by decide)
    (by decide)

lemma insertLeBy_congr {α : Type} {k1 k2 : α → ℚ}
    (h : ∀ x y : α, k1 y ≤ k1 x ↔ k2 y ≤ k2 x) (x : α) :
    ∀ l : List α, insertLeBy k1 x l = insertLeBy k2 x l := by
  intro l
  induction l with
  | nil => rfl
  | cons y ys ih =>
    simp only [insertLeBy, ih]
    by_cases hc : k2 y ≤ k2 x
    · rw [if_pos hc, if_pos ((h x y).mpr hc)]
    · rw [if_neg hc, if_neg (fun hk => hc ((h x y).mp hk))]

lemma sortLeBy_congr {α : Type} {k1 k2 : α → ℚ}
    (h : ∀ x y : α, k1 y ≤ k1 x ↔ k2 y ≤ k2 x) :
    ∀ l : List α, sortLeBy k1 l = sortLeBy k2 l := by
  intro l
  induction l with
  | nil => rfl
  | cons x xs ih => simp only [sortLeBy, ih, insertLeBy_congr h]

lemma getD_map_smul (c : ℚ) (p : List ℚ) (i : Nat) :
    (p.map (fun x => c * x)).getD i 0 = c * p.getD i 0 := by
  rcases Nat.lt_or_ge i p.length with hlt | hge
  · rw [List.getD_eq_getElem _ _ (by simpa using hlt),
      List.getD_eq_getElem _ _ hlt, List.getElem_map]
  · rw [List.getD_eq_default _ _ (by simpa using hge),
      List.getD_eq_default _ _ hge, mul_zero]

lemma argsortDesc_smul {c : ℚ} (hc : 0 < c) (p : List ℚ) :
    argsortDesc (p.map (fun x => c * x)) = argsortDesc p := by
  unfold argsortDesc
  rw [List.length_map]
  congr 1
  refine sortLeBy_congr (fun i j => ?_) _
  rw [getD_map_smul, getD_map_smul]
  exact mul_le_mul_left hc

/-- C9: `weighted_gini` is invariant under multiplying the predicted vector
by a positive scalar: the sort permutation is unchanged and nothing after
the sort reads `predicted`. -/
theorem weighted_gini_scale_invariant (weight actual predicted : List ℚ)
    (c : ℚ) (hc : 0 < c) :
    weighted_gini weight actual (predicted.map (fun x => c * x)) =
      weighted_gini weight actual predicted := by
  simp only [weighted_gini, argsortDesc_smul hc]

/-- Witness for C9 at `c = 2`, `weight = [1,1]`, `actual = [3,4]`,
`predicted = [5,6]`. -/
theorem weighted_gini_scale_invariant_witness :
    (0 : ℚ) < 2 ∧
    weighted_gini [1, 1] [3, 4] ([5, 6].map (fun x => 2 * x)) =
      weighted_gini [1, 1] [3, 4] [5, 6] :=
  ⟨by decide, weighted_gini_scale_invariant [1, 1] [3, 4] [5, 6] 2 (by decide)⟩

lemma getD_take {l : List ℚ} {n i : Nat} (h : i < n) :
    (l.take n).getD i 0 = l.getD i 0 := by
  rw [List.getD_eq_getElem?_getD, List.getD_eq_getElem?_getD,
    List.getElem?_take_of_lt h]

/-- C10 counterexample: `weighted_gini` with `weight` and `actual` strictly
longer than `predicted` raises no error and silently computes on truncated
data, contradicting the claim that a length mismatch is detected and
reported before computation proceeds. -/
theorem weighted_gini_silent_truncation_counterexample :
    weighted_gini [1, 2] [3, 4] [5] = some 0 := by
  norm_num [weighted_gini, argsortDesc, sortLeBy, insertLeBy, getList, cumsum]

/-- C10 amended: no function checks vector lengths up front; mismatches
surface, if at all, through the underlying array operations.
`weighted_gini` silently truncates a longer `weight`/`actual` to
`predicted`'s length, and raises (IndexError) only when `weight` is
shorter than `predicted`; `weighted_rmse` silently broadcasts a length-1
`weight`; `hl_tweedie_df` raises at frame construction. -/
theorem length_mismatch_behavior_amended :
    (∀ w a p : List ℚ, p.length ≤ w.length → p.length ≤ a.length →
      weighted_gini w a p =
        weighted_gini (w.take p.length) (a.take p.length) p) ∧
    (∀ w a p : List ℚ, w.length < p.length →
      weighted_gini w a p = none) ∧
    (∀ (c : ℚ) (a p : List ℚ), a.length = p.length →
      weighted_rmse [c] a p ≠ none) ∧
    (∀ (w a p : List ℚ) (bins : Nat) (phi pw : ℚ),
      ¬(w.length = p.length ∧ a.length = p.length) →
      (hl_tweedie_df w a p bins phi pw).1 = none) := by
  refine ⟨?_, ?_, ?_, ?_⟩
  · intro w a p hw ha
    have hmw : ∀ i ∈ argsortDesc p, i < w.length :=
      fun i hi => lt_of_lt_of_le (mem_argsortDesc_lt hi) hw
    have hma : ∀ i ∈ argsortDesc p, i < a.length :=
      fun i hi => lt_of_lt_of_le (mem_argsortDesc_lt hi) ha
    have hmw' : ∀ i ∈ argsortDesc p, i < (w.take p.length).length := by
      intro i hi
      rw [List.length_take]
      exact lt_min (mem_argsortDesc_lt hi)
        (lt_of_lt_of_le (mem_argsortDesc_lt hi) hw)
    have hma' : ∀ i ∈ argsortDesc p, i < (a.take p.length).length := by
      intro i hi
      rw [List.length_take]
      exact lt_min (mem_argsortDesc_lt hi)
        (lt_of_lt_of_le (mem_argsortDesc_lt hi) ha)
    have e1 : ((argsortDesc p).map fun i => (w.take p.length).getD i 0) =
        (argsortDesc p).map fun i => w.getD i 0 :=
      List.map_congr_left fun i hi => getD_take (mem_argsortDesc_lt hi)
    have e2 : ((argsortDesc p).map fun i => (a.take p.length).getD i 0) =
        (argsortDesc p).map fun i => a.getD i 0 :=
      List.map_congr_left fun i hi => getD_take (mem_argsortDesc_lt hi)
    rw [weighted_gini, weighted_gini, getList_eq_map hmw, getList_eq_map hma,
      getList_eq_map hmw', getList_eq_map hma', e1, e2]
  · intro w a p hlen
    have hmem : w.length ∈ argsortDesc p := mem_argsortDesc_of_lt hlen
    have hnone : getList w (argsortDesc p) = none :=
      getList_eq_none hmem (le_refl _)
    rw [weighted_gini, hnone]
  · intro c a p hlen
    simp only [weighted_rmse, npBinop, if_pos hlen, List.length_map,
      List.length_cons, List.length_nil]
    rcases eq_or_ne 1 (List.zipWith (· - ·) a p).length with h1 | h1
    · rw [if_pos h1]
      simp
    · rw [if_neg h1]
      simp
  · intro w a p bins phi pw hne
    simp only [hl_tweedie_df, if_neg hne]

/-- Witness for C10's amended statement at concrete mismatched inputs. -/
theorem length_mismatch_behavior_amended_witness :
    weighted_gini [1, 2] [3, 4] [5] =
      weighted_gini ([1, 2].take 1) ([3, 4].take 1) [5] ∧
    weighted_gini [] [] [5] = none ∧
    weighted_rmse [2] [1, 1] [1, 2] ≠ none ∧
    (hl_tweedie_df [1] [1] [1, 2] 2 1 (3 / 2)).1 = none :=
  ⟨length_mismatch_behavior_amended.1 [1, 2] [3, 4] [5] (by decide)
      (by decide),
    length_mismatch_behavior_amended.2.1 [] [] [5] (by decide),
    length_mismatch_behavior_amended.2.2.1 2 [1, 1] [1, 2] (by decide),
    length_mismatch_behavior_amended.2.2.2 [1] [1] [1, 2] 2 1 (3 / 2)
      (by decide)⟩

lemma map_range_getD {α : Type} (d : α) (l : List α) :
    (List.range l.length).map (fun i => l.getD i d) = l := by
  induction l with
  | nil => rfl
  | cons x xs ih =>
    rw [List.length_cons, List.range_succ_eq_map, List.map_cons,
      List.map_map]
    simp only [List.getD_cons_zero]
    have e : List.map ((fun i => (x :: xs).getD i d) ∘ Nat.succ)
        (List.range xs.length) =
        List.map (fun i => xs.getD i d) (List.range xs.length) :=
      List.map_congr_left fun i _ => by
        simp [Function.comp, List.getD_cons_succ]
    rw [e, ih]

lemma searchsorted_eq_countP {a : List ℚ} (h : List.Pairwise (· ≤ ·) a)
    (v : ℚ) : searchsorted a v = a.countP (fun q => q < v) := by
  induction a with
  | nil => rfl
  | cons x xs ih =>
    rw [List.pairwise_cons] at h
    rw [searchsorted, List.countP_cons]
    by_cases hx : x < v
    · rw [if_pos hx, ih h.2]
      simp [hx]
    · rw [if_neg hx]
      have hz : xs.countP (fun q => decide (q < v)) = 0 := by
        rw [List.countP_eq_zero]
        intro q hq
        simp only [decide_eq_true_eq]
        exact fun hlt => hx (lt_of_le_of_lt (h.1 q hq) hlt)
      simp [hx, hz]

/-- C2 counterexample: at `weight = [1,1,1]`, `actual = [0,0,0]`,
`predicted = [-4,-2,6]`, `bins = 3`, the code assigns bin ids `[0,1,2]`
(searchsorted over the unclamped vector) while the claim's procedure
(searchsorted over the clamped vector) assigns `[2,2,2]`. -/
theorem hl_binning_clamped_search_counterexample :
    ((hl_tweedie_df [1, 1, 1] [0, 0, 0] [-4, -2, 6] 3 1 (3 / 2)).1).map
        (List.map Row.quantile) ≠
      stage_a_bins_claim [1, 1, 1] [0, 0, 0] [-4, -2, 6] 3 := by
  have h1 : ((hl_tweedie_df [1, 1, 1] [0, 0, 0] [-4, -2, 6] 3 1 (3 / 2)).1).map
      (List.map Row.quantile) = some [0, 1, 2] := by
    norm_num [hl_tweedie_df, clampList, clampVal, weightedQuantile, wqInterp,
      probsList, mapOptionList, searchsorted, sortLeBy, insertLeBy, cumsum,
      List.range_succ]
  have h2 : stage_a_bins_claim [1, 1, 1] [0, 0, 0] [-4, -2, 6] 3 =
      some [2, 2, 2] := by
    norm_num [stage_a_bins_claim, clampList, clampVal, weightedQuantile,
      wqInterp, probsList, mapOptionList, searchsorted, sortLeBy, insertLeBy,
      cumsum]
  rw [h1, h2]
  decide

/-- C2 amended: in the binning stage the `bins-1` weighted quantile cut
points are computed over the unclamped predicted vector, and the bin ids
are assigned by a sorted-insertion search applied to the UNCLAMPED
predicted vector as well (bin id = number of cut points strictly below the
observation); the clamped copy appears only as the frame's `predicted`
column. -/
theorem hl_binning_unclamped_search (w a p : List ℚ) (bins : Nat)
    (phi pw : ℚ) (qs : List ℚ)
    (hw : w.length = p.length) (ha : a.length = p.length)
    (hqs : mapOptionList (weightedQuantile p w) (probsList bins) = some qs)
    (hsorted : List.Pairwise (· ≤ ·) qs) :
    ((hl_tweedie_df w a p bins phi pw).1).map
        (fun rows => (rows.map Row.quantile, rows.map Row.predicted)) =
      some (p.map (fun v => qs.countP (fun q => q < v)), clampList p) := by
  simp only [hl_tweedie_df, if_pos (And.intro hw ha), hqs, Option.map_some]
  refine congrArg some (Prod.ext ?_ ?_)
  · dsimp only
    rw [List.map_map]
    have e1 : (Row.quantile ∘ fun i => Row.mk (w.getD i 0) (a.getD i 0)
        ((clampList p).getD i 0) ((p.map (searchsorted qs)).getD i 0)) =
        fun i => (p.map (searchsorted qs)).getD i 0 := by
      funext i
      rfl
    rw [e1]
    have hlen : (p.map (searchsorted qs)).length = p.length :=
      List.length_map p _
    rw [← hlen, map_range_getD]
    exact List.map_congr_left fun v _ => searchsorted_eq_countP hsorted v
  · dsimp only
    rw [List.map_map]
    have e2 : (Row.predicted ∘ fun i => Row.mk (w.getD i 0) (a.getD i 0)
        ((clampList p).getD i 0) ((p.map (searchsorted qs)).getD i 0)) =
        fun i => (clampList p).getD i 0 := by
      funext i
      rfl
    rw [e2]
    have hlen : (clampList p).length = p.length := List.length_map p _
    rw [← hlen, map_range_getD]

/-- Witness for C2's amended statement at `weight = [1,1,1]`,
`actual = [0,0,0]`, `predicted = [-4,-2,6]`, `bins = 3`,
`qs = [-4,-2]`. -/
theorem hl_binning_unclamped_search_witness :
    ((hl_tweedie_df [1, 1, 1] [0, 0, 0] [-4, -2, 6] 3 1 (3 / 2)).1).map
        (fun rows => (rows.map Row.quantile, rows.map Row.predicted)) =
      some (([-4, -2, 6] : List ℚ).map
          (fun v => ([-4, -2] : List ℚ).countP (fun q => q < v)),
        clampList [-4, -2, 6]) :=
  hl_binning_unclamped_search [1, 1, 1] [0, 0, 0] [-4, -2, 6] 3 1 (3 / 2)
    [-4, -2] (by decide) (by decide)
    (by norm_num [weightedQuantile, wqInterp, probsList, mapOptionList,
      sortLeBy, insertLeBy, cumsum])
    (by norm_num [List.pairwise_cons])

lemma chi_sq_tweedie_of_pos (phi pw : ℚ) (grp : List Row)
    (h : 0 < (grp.map Row.weight).sum) :
    chi_sq_tweedie phi pw grp = some (chi_sq_term_pos phi pw grp) := by
  rw [chi_sq_tweedie, chi_sq_tweedie_lists, weighted_average,
    weighted_average, if_neg (ne_of_gt h), if_neg (ne_of_gt h),
    chi_sq_term_pos]

lemma chi_sq_tweedie_of_zero (phi pw : ℚ) (grp : List Row)
    (h : (grp.map Row.weight).sum = 0) :
    chi_sq_tweedie phi pw grp = none := by
  rw [chi_sq_tweedie, chi_sq_tweedie_lists, weighted_average, if_pos h]

lemma sumChiTerms_eq_positive_filter (phi pw : ℚ) (df : List Row)
    (hnn : ∀ r ∈ df, 0 ≤ r.weight) :
    ∀ keys : List Nat,
    sumChiTerms phi pw df keys =
      ((keys.filter (fun q => 0 < ((groupRows df q).map Row.weight).sum)).map
        (fun q => chi_sq_term_pos phi pw (groupRows df q))).sum := by
  intro keys
  induction keys with
  | nil => rfl
  | cons q ks ih =>
    have hgnn : ∀ x ∈ (groupRows df q).map Row.weight, 0 ≤ x := by
      intro x hx
      rcases List.mem_map.mp hx with ⟨r, hr, rfl⟩
      exact hnn r (List.mem_of_mem_filter hr)
    by_cases hs : ((groupRows df q).map Row.weight).sum = 0
    · rw [sumChiTerms, chi_sq_tweedie_of_zero phi pw _ hs, List.filter_cons,
        if_neg (by simp [hs]), ih]
    · have hpos : 0 < ((groupRows df q).map Row.weight).sum :=
        lt_of_le_of_ne (List.sum_nonneg hgnn) (Ne.symm hs)
      rw [sumChiTerms, chi_sq_tweedie_of_pos phi pw _ hpos, List.filter_cons,
        if_pos (by simp [hpos]), List.map_cons, List.sum_cons, ih]

lemma hl_tweedie_df_weights_nonneg {w a p : List ℚ} {bins : Nat}
    {phi pw : ℚ} {df : List Row}
    (hdf : (hl_tweedie_df w a p bins phi pw).1 = some df)
    (hw : ∀ x ∈ w, 0 ≤ x) : ∀ r ∈ df, 0 ≤ r.weight := by
  intro r hr
  simp only [hl_tweedie_df] at hdf
  by_cases hc : w.length = p.length ∧ a.length = p.length
  · rw [if_pos hc] at hdf
    cases hqs : mapOptionList (weightedQuantile p w) (probsList bins) with
    | none =>
      rw [hqs] at hdf
      cases hdf
    | some qs =>
      rw [hqs] at hdf
      have hdf' := Option.some.inj hdf
      rw [← hdf'] at hr
      rcases List.mem_map.mp hr with ⟨i, _, rfl⟩
      show 0 ≤ w.getD i 0
      rcases Nat.lt_or_ge i w.length with hlt | hge
      · rw [List.getD_eq_getElem _ _ hlt]
        exact hw _ (List.getElem_mem hlt)
      · rw [List.getD_eq_default _ _ hge]
  · rw [if_neg hc] at hdf
    cases hdf

lemma getD_map_searchsorted_nil (p : List ℚ) (i : Nat) :
    (p.map (searchsorted [])).getD i 0 = 0 := by
  rcases Nat.lt_or_ge i p.length with hlt | hge
  · rw [List.getD_eq_getElem _ _ (by simpa using hlt), List.getElem_map]
    rfl
  · exact List.getD_eq_default _ _ (by simpa using hge)

/-- C8: with `bins = 1` there are no cut points, every observation lands in
bin `0`, and `hl_tweedie` returns exactly the per-bin chi-square formula
evaluated over the entire dataset treated as one bin.  The hypotheses are
the data model's input invariant (equal lengths, `N ≥ 1`, and a total
weight that is not zero — the spec requires nonnegative, not-all-zero
weights); with an all-zero weight vector the one-bin term is NaN and the
skipna sum returns `0.0` instead. -/
theorem hl_tweedie_single_bin (w a p : List ℚ) (phi pw : ℚ)
    (hw : w.length = p.length) (ha : a.length = p.length)
    (hn : 0 < p.length) (hnz : w.sum ≠ 0) :
    hl_tweedie w a p 1 phi pw = hl_whole_dataset_term phi pw w a p := by
  have hqs : mapOptionList (weightedQuantile p w) (probsList 1) = some [] :=
    rfl
  rw [hl_tweedie]
  simp only [hl_tweedie_df, if_pos (And.intro hw ha), hqs]
  set rows := (List.range p.length).map (fun i =>
    Row.mk (w.getD i 0) (a.getD i 0) ((clampList p).getD i 0)
      ((p.map (searchsorted [])).getD i 0)) with hrows
  have hqcol : rows.map Row.quantile = List.replicate p.length 0 := by
    rw [hrows, List.map_map]
    have e : (Row.quantile ∘ fun i => Row.mk (w.getD i 0) (a.getD i 0)
        ((clampList p).getD i 0) ((p.map (searchsorted [])).getD i 0)) =
        Function.const Nat 0 := by
      funext i
      exact getD_map_searchsorted_nil p i
    rw [e, List.map_const, List.length_range]
  have hkeys : quantileKeys rows = [0] := by
    rw [quantileKeys, hqcol,
      List.replicate_dedup (Nat.pos_iff_ne_zero.mp hn)]
    rfl
  have hgrp : groupRows rows 0 = rows := by
    rw [groupRows, List.filter_eq_self]
    intro r hr
    rcases List.mem_map.mp (hrows ▸ hr) with ⟨i, _, rfl⟩
    simp only [decide_eq_true_eq]
    exact getD_map_searchsorted_nil p i
  have hchi : chi_sq_tweedie phi pw rows = hl_whole_dataset_term phi pw w a p := by
    rw [chi_sq_tweedie, hl_whole_dataset_term]
    have ew : rows.map Row.weight = w := by
      rw [hrows, List.map_map]
      have e : (Row.weight ∘ fun i => Row.mk (w.getD i 0) (a.getD i 0)
          ((clampList p).getD i 0) ((p.map (searchsorted [])).getD i 0)) =
          fun i => w.getD i 0 := rfl
      rw [e, ← hw, map_range_getD]
    have ea : rows.map Row.actual = a := by
      rw [hrows, List.map_map]
      have e : (Row.actual ∘ fun i => Row.mk (w.getD i 0) (a.getD i 0)
          ((clampList p).getD i 0) ((p.map (searchsorted [])).getD i 0)) =
          fun i => a.getD i 0 := rfl
      rw [e, ← ha, map_range_getD]
    have ep : rows.map Row.predicted = clampList p := by
      rw [hrows, List.map_map]
      have e : (Row.predicted ∘ fun i => Row.mk (w.getD i 0) (a.getD i 0)
          ((clampList p).getD i 0) ((p.map (searchsorted [])).getD i 0)) =
          fun i => (clampList p).getD i 0 := rfl
      have hlen : (clampList p).length = p.length := List.length_map p _
      rw [e, ← hlen, map_range_getD]
    rw [ew, ea, ep]
  have hterm0 : (hl_whole_dataset_term phi pw w a p).isSome = true := by
    rw [hl_whole_dataset_term, chi_sq_tweedie_lists, weighted_average,
      weighted_average, if_neg hnz, if_neg hnz]
    rfl
  obtain ⟨t, hterm⟩ := Option.isSome_iff_exists.mp hterm0
  have hchiv : chi_sq_tweedie phi pw rows = some t := hchi.trans hterm
  rw [hkeys, hterm, sumChiTerms, hgrp, hchiv]
  show some (t + sumChiTerms phi pw rows []) = some t
  rw [sumChiTerms, add_zero]

/-- Witness for C8 at `weight = [1,1]`, `actual = [1,2]`,
`predicted = [3,4]`. -/
theorem hl_tweedie_single_bin_witness :
    hl_tweedie [1, 1] [1, 2] [3, 4] 1 1 (3 / 2) =
      hl_whole_dataset_term 1 (3 / 2) [1, 1] [1, 2] [3, 4] :=
  hl_tweedie_single_bin [1, 1] [1, 2] [3, 4] 1 (3 / 2) (by decide) (by decide)
    (by decide) (by norm_num [List.sum_cons, List.sum_nil])

/-- C7: for nonnegative weights (the data model's invariant), a bin whose
total weight is zero contributes nothing and causes no error: its
weighted averages are NaN (0/0), and the pandas `Series.sum` used by
`hl_tweedie` skips NaN (`skipna=True`), so the returned statistic equals
the sum of the per-bin chi-square terms over exactly the bins with
positive total weight. -/
theorem hl_tweedie_skips_zero_weight_bins (w a p : List ℚ) (bins : Nat)
    (phi pw : ℚ) (hw : ∀ x ∈ w, 0 ≤ x) :
    hl_tweedie w a p bins phi pw =
      hl_positive_bins_sum w a p bins phi pw := by
  cases hdf : (hl_tweedie_df w a p bins phi pw).1 with
  | none => simp only [hl_tweedie, hl_positive_bins_sum, hdf]
  | some df =>
    have hnn : ∀ r ∈ df, 0 ≤ r.weight :=
      hl_tweedie_df_weights_nonneg hdf hw
    simp only [hl_tweedie, hl_positive_bins_sum, hdf]
    rw [sumChiTerms_eq_positive_filter phi pw df hnn]

/-- Witness for C7 at `weight = [0,1]`, `actual = [1,1]`,
`predicted = [1,10]`, `bins = 2`: bin `0` is present with total weight
`0`, its NaN term is skipped, and the statistic is the sum over the
positive-weight bins. -/
theorem hl_tweedie_skips_zero_weight_bins_witness :
    hl_tweedie [0, 1] [1, 1] [1, 10] 2 1 (3 / 2) =
      hl_positive_bins_sum [0, 1] [1, 1] [1, 10] 2 1 (3 / 2) :=
  hl_tweedie_skips_zero_weight_bins [0, 1] [1, 1] [1, 10] 2 1 (3 / 2)
    (by decide)

lemma tryRun_cons_of_some {s : Report → Option Report}
    {rest : List (Report → Option Report)} {r r' : Report}
    (h : s r = some r') : tryRun (s :: rest) r = tryRun rest r' := by
  rw [tryRun, h]

/-- C3 evaluation at the failing input: with `'w'` explicitly supplied in
`train_set`, the report's `train` entry carries `rmse`, `mae` and `gini`
but NOT `weighted_rmse` — the source sets `has_weight = True` exactly when
`'w'` is absent, the reverse of the claim. -/
theorem weighted_rmse_key_requires_missing_w :
    (model_stats_reg ⟨some [0, 1], some [0, 1], some [1, 1]⟩ none).map
        (fun r => (r.1.train.rmse.isSome, r.1.train.mae.isSome,
          r.1.train.gini.isSome, r.1.train.weighted_rmse.isSome)) =
      some (true, true, true, false) := by
  norm_num [model_stats_reg, msrFill, msrSteps, tryRun, stTrainRmse,
    stTrainMae, stTrainGini, mean_squared_error, mean_absolute_error,
    weighted_gini, argsortDesc, sortLeBy, insertLeBy, getList, cumsum]

/-- C4: calling `model_stats_reg` with a `train_set` lacking `'w'` (and
well-formed `y`/`pred` vectors per the data model) and no `valid_set`
returns a report whose `train` entry has `rmse`, `mae`, `gini` AND
`weighted_rmse`, each a one-element list, and whose `valid` entry is the
empty dict. -/
theorem model_stats_reg_default_weight_report (ys ps : List ℚ)
    (hlen : ys.length = ps.length) (hn : ys.length ≠ 0) :
    (model_stats_reg ⟨some ys, some ps, none⟩ none).map
        (fun r => (r.1.train.rmse.map List.length,
          r.1.train.mae.map List.length,
          r.1.train.gini.map List.length,
          r.1.train.weighted_rmse.map List.length,
          r.1.valid.rmse, r.1.valid.mae, r.1.valid.gini,
          r.1.valid.weighted_rmse)) =
      some (some 1, some 1, some 1, some 1, none, none, none, none) := by
  have hps : 0 < ps.length := hlen ▸ Nat.pos_of_ne_zero hn
  have hcond : ys.length = ps.length ∧ ys.length ≠ 0 := ⟨hlen, hn⟩
  have hwlen : (onesQ ys.length).length = ps.length := by
    rw [onesQ, List.length_replicate, hlen]
  obtain ⟨m1, hm1⟩ : ∃ m, mean_squared_error ys ps = some m :=
    ⟨_, by rw [mean_squared_error, if_pos hcond]⟩
  obtain ⟨m2, hm2⟩ : ∃ m, mean_absolute_error ys ps = some m :=
    ⟨_, by rw [mean_absolute_error, if_pos hcond]⟩
  obtain ⟨g, hg⟩ : ∃ g, weighted_gini (onesQ ys.length) ys ps = some g :=
    ⟨_, weighted_gini_eq_spec hwlen hlen hps⟩
  obtain ⟨v, hv⟩ : ∃ v, weighted_rmse (onesQ ys.length) ys ps = some v := by
    have h1 : npBinop (· - ·) ys ps = some (List.zipWith (· - ·) ys ps) := by
      rw [npBinop, if_pos hlen]
    have hlen2 : (onesQ ys.length).length =
        ((List.zipWith (· - ·) ys ps).map (fun x => x ^ 2)).length := by
      rw [List.length_map, List.length_zipWith, hwlen, hlen, Nat.min_self]
    have h2 : npBinop (· * ·) (onesQ ys.length)
        ((List.zipWith (· - ·) ys ps).map (fun x => x ^ 2)) =
        some (List.zipWith (· * ·) (onesQ ys.length)
          ((List.zipWith (· - ·) ys ps).map (fun x => x ^ 2))) := by
      rw [npBinop, if_pos hlen2]
    have hv0 : weighted_rmse (onesQ ys.length) ys ps =
        some (Real.sqrt ((((List.zipWith (· * ·) (onesQ ys.length)
            ((List.zipWith (· - ·) ys ps).map (fun x => x ^ 2))).sum /
          (onesQ ys.length).sum : ℚ)) : ℝ)) := by
      rw [weighted_rmse, h1]
      show (match npBinop (· * ·) (onesQ ys.length)
          ((List.zipWith (· - ·) ys ps).map (fun x => x ^ 2)) with
        | none => none
        | some s => some (Real.sqrt ((s.sum / (onesQ ys.length).sum : ℚ) : ℝ)))
        = _
      rw [h2]
    exact ⟨_, hv0⟩
  have hfill : msrFill ⟨some ys, some ps, none⟩ none =
      some (⟨some ys, some ps, some (onesQ ys.length)⟩, true) := rfl
  have e1 : stTrainRmse ⟨some ys, some ps, some (onesQ ys.length)⟩
      (Report.mk ⟨none, none, none, none⟩ ⟨none, none, none, none⟩) =
      some (Report.mk ⟨some [Real.sqrt ((m1 : ℚ) : ℝ)], none, none, none⟩
        ⟨none, none, none, none⟩) := by
    simp only [stTrainRmse, hm1]
  have e2 : stTrainMae ⟨some ys, some ps, some (onesQ ys.length)⟩
      (Report.mk ⟨some [Real.sqrt ((m1 : ℚ) : ℝ)], none, none, none⟩
        ⟨none, none, none, none⟩) =
      some (Report.mk ⟨some [Real.sqrt ((m1 : ℚ) : ℝ)], some [((m2 : ℚ) : ℝ)],
        none, none⟩ ⟨none, none, none, none⟩) := by
    simp only [stTrainMae, hm2]
  have e3 : stTrainGini ⟨some ys, some ps, some (onesQ ys.length)⟩
      (Report.mk ⟨some [Real.sqrt ((m1 : ℚ) : ℝ)], some [((m2 : ℚ) : ℝ)],
        none, none⟩ ⟨none, none, none, none⟩) =
      some (Report.mk ⟨some [Real.sqrt ((m1 : ℚ) : ℝ)], some [((m2 : ℚ) : ℝ)],
        some [((g : ℚ) : ℝ)], none⟩ ⟨none, none, none, none⟩) := by
    simp only [stTrainGini, hg]
  have e4 : stTrainWrmse ⟨some ys, some ps, some (onesQ ys.length)⟩
      (Report.mk ⟨some [Real.sqrt ((m1 : ℚ) : ℝ)], some [((m2 : ℚ) : ℝ)],
        some [((g : ℚ) : ℝ)], none⟩ ⟨none, none, none, none⟩) =
      some (Report.mk ⟨some [Real.sqrt ((m1 : ℚ) : ℝ)], some [((m2 : ℚ) : ℝ)],
        some [((g : ℚ) : ℝ)], some [v]⟩ ⟨none, none, none, none⟩) := by
    simp only [stTrainWrmse, hv]
  have hrun : model_stats_reg ⟨some ys, some ps, none⟩ none =
      some (Report.mk ⟨some [Real.sqrt ((m1 : ℚ) : ℝ)], some [((m2 : ℚ) : ℝ)],
          some [((g : ℚ) : ℝ)], some [v]⟩ ⟨none, none, none, none⟩,
        ⟨some ys, some ps, some (onesQ ys.length)⟩, none) := by
    simp only [model_stats_reg, hfill, msrSteps, if_true, List.cons_append,
      List.nil_append, List.append_nil]
    rw [tryRun_cons_of_some e1, tryRun_cons_of_some e2,
      tryRun_cons_of_some e3, tryRun_cons_of_some e4, tryRun]
  rw [hrun]
  simp

/-- Witness for C4 at `y = [1, 2]`, `pred = [1, 2]`. -/
theorem model_stats_reg_default_weight_report_witness :
    (model_stats_reg ⟨some [1, 2], some [1, 2], none⟩ none).map
        (fun r => (r.1.train.rmse.map List.length,
          r.1.train.mae.map List.length,
          r.1.train.gini.map List.length,
          r.1.train.weighted_rmse.map List.length,
          r.1.valid.rmse, r.1.valid.mae, r.1.valid.gini,
          r.1.valid.weighted_rmse)) =
      some (some 1, some 1, some 1, some 1, none, none, none, none) :=
  model_stats_reg_default_weight_report [1, 2] [1, 2] (by decide) (by decide)

/-- C5 counterexample: a `train_set` with neither `'w'` nor `'y'` raises an
uncaught KeyError in the weight-filling block, which runs BEFORE the
`try`, so `model_stats_reg` does not return a report for every input. -/
theorem model_stats_reg_raises_on_missing_y :
    model_stats_reg ⟨none, some [1], none⟩ none = none := rfl

/-- C5 amended: `model_stats_reg` returns a report (it never raises) as
long as the pre-`try` weight fill cannot hit a missing `'y'` key: either
`'w'` is present in `train_set`, or `'y'` is present in `train_set` and in
`valid_set` when one is supplied.  Every exception inside the metric
computations is caught and the partially-built report is returned. -/
theorem model_stats_reg_total_when_keys_present (t : DSet) (v : Option DSet)
    (h : t.w.isSome = true ∨
      (t.y.isSome = true ∧ ∀ vs, v = some vs → vs.y.isSome = true)) :
    (model_stats_reg t v).isSome = true := by
  cases hw : t.w with
  | some W => simp [model_stats_reg, msrFill, hw]
  | none =>
    rcases h with h | ⟨hy, hv⟩
    · rw [hw] at h
      simp at h
    · cases hy' : t.y with
      | none =>
        rw [hy'] at hy
        simp at hy
      | some ty =>
        cases v with
        | none => simp [model_stats_reg, msrFill, hw, hy']
        | some vs =>
          cases hvy : vs.y with
          | none =>
            have := hv vs rfl
            rw [hvy] at this
            simp at this
          | some vy => simp [model_stats_reg, msrFill, hw, hy', hvy]

/-- Witness for C5's amended statement: `train_set` has `'y'` but neither
`'w'` nor `'pred'`; the inner metric computations all raise (KeyError on
`'pred'`), the exception is caught, and a report is still returned. -/
theorem model_stats_reg_total_when_keys_present_witness :
    (model_stats_reg ⟨some [1], none, none⟩ none).isSome = true :=
  model_stats_reg_total_when_keys_present ⟨some [1], none, none⟩ none
    (Or.inr ⟨by decide, fun vs hvs => by cases hvs⟩)

/-- C6 counterexample: `model_stats_reg` mutates the caller's `train_set`
when `'w'` is absent — after the call the dict has gained a `'w'` key, so
the inputs are not left unchanged. -/
theorem model_stats_reg_mutates_train_set :
    (model_stats_reg ⟨some [1], some [1], none⟩ none).map
        (fun x => x.2.1) = some ⟨some [1], some [1], some [1]⟩ ∧
    (⟨some [1], some [1], some [1]⟩ : DSet) ≠ ⟨some [1], some [1], none⟩ := by
  constructor
  · rfl
  · decide

/-- C6 amended: the epsilon clamping in `deviance_tweedie`,
`hl_tweedie_df` and `pearson_chi_sq_scale_estimate` operates on a local
copy and leaves the caller's `predicted` vector unchanged; and
`model_stats_reg` leaves its `train_set` and `valid_set` unchanged
PROVIDED `'w'` is present in `train_set` (when `'w'` is absent the weight
fill adds a `'w'` key to the caller's dict). -/
theorem clamping_preserves_inputs_amended :
    (∀ (a p w : List ℚ) (pw : ℚ), (deviance_tweedie a p w pw).2 = p) ∧
    (∀ (a w p : List ℚ) (pp tp : ℚ),
      (pearson_chi_sq_scale_estimate a w p pp tp).2 = p) ∧
    (∀ (w a p : List ℚ) (bins : Nat) (phi pw : ℚ),
      (hl_tweedie_df w a p bins phi pw).2 = p) ∧
    (∀ (t : DSet) (v : Option DSet), t.w.isSome = true →
      (model_stats_reg t v).map (fun x => x.2) = some (t, v)) := by
  refine ⟨fun _ _ _ _ => rfl, fun _ _ _ _ _ => rfl, fun _ _ _ _ _ _ => rfl, ?_⟩
  intro t v h
  cases hw : t.w with
  | none =>
    rw [hw] at h
    simp at h
  | some W => simp [model_stats_reg, msrFill, hw]

/-- Witness for C6's amended statement with `'w'` present in
`train_set`. -/
theorem clamping_preserves_inputs_amended_witness :
    (model_stats_reg ⟨some [1], some [1], some [2]⟩ none).map
        (fun x => x.2) = some (⟨some [1], some [1], some [2]⟩, none) :=
  clamping_preserves_inputs_amended.2.2.2 ⟨some [1], some [1], some [2]⟩
    none (by decide)

end Vogel
